import Mathlib

/-!
Verification of PaulMaddox/golang-db-pool-pattern (src/main.go).

The program is a master/worker pool: a job-source goroutine pushes jobs
0..jobs-1 into a buffered channel `queue` (capacity 512); each of the
`workers` workers loops receiving jobs, performs a database insert, and on a
transient error (io.EOF or io.ErrUnexpectedEOF) re-enqueues the same job via a
spawned goroutine, reconnects, and emits no result, while on any other outcome
it emits exactly one JobResult on `results`; the main goroutine consumes
exactly `jobs` results (logging progress in 5% chunks and logging failures),
then closes `queue` and reports elapsed time and elapsed / jobs per job.

The development has two layers:
* pure functions embedding straight-line pieces of the source (worker loop
  body, `connect`, the progress/announce logic of the result loop, the result
  loop itself, the final statistics arithmetic);
* a small-step operational model of the whole concurrent run (`Sys`, `step`,
  `run`) in which a scheduler picks an explicit list of actions; goroutine
  interleavings are action sequences, channel sends/receives are guarded list
  operations, and the spawned retry goroutines are the `dispatches` pool.
-/

namespace DbPool

/-- Go `error` values relevant to the worker: `io.EOF`, `io.ErrUnexpectedEOF`,
or any other error (carrying its message). `Option GoErr` models a Go error
variable, `none` being `nil`. -/
inductive GoErr where
  | eof
  | unexpectedEOF
  | other (msg : String)
deriving DecidableEq, Repr

/-- `JobResult` from src/main.go lines 40-44: job id, id of the emitting
worker, and the error from the insert (`none` = success). -/
structure JobResult where
  jobId : Nat
  workerId : Nat
  error : Option GoErr
deriving DecidableEq, Repr

/-- The transient-failure classification of src/main.go line 145:
`err == io.EOF || err == io.ErrUnexpectedEOF`. -/
def isTransientErr : Option GoErr → Bool
  | some GoErr.eof => true
  | some GoErr.unexpectedEOF => true
  | _ => false

/-- What the worker loop body does after the insert attempt (src/main.go lines
145-163): either re-dispatch the same job and reconnect (transient error, no
result), or emit exactly one `JobResult` tagged with this worker's id and the
job's id. -/
structure WorkerAction where
  redispatch : Option Nat
  reconnect : Bool
  result : Option JobResult
deriving DecidableEq, Repr

/-- Embedding of the worker loop body, src/main.go lines 145-161: on a
transient error the job goes back on the queue (via a spawned goroutine, here
the `redispatch` field), the worker reconnects, and no result is sent;
otherwise one result carrying the insert's error is sent. -/
def workerBody (id jid : Nat) (err : Option GoErr) : WorkerAction :=
  if isTransientErr err then
    { redispatch := some jid, reconnect := true, result := none }
  else
    { redispatch := none, reconnect := false,
      result := some { jobId := jid, workerId := id, error := err } }

/-- Embedding of `connect` (src/main.go lines 171-188): an unconditional loop
that logs, dials, and returns a collection handle on the first successful
dial. `dial k` tells whether the k-th dial attempt succeeds; the handle is
modelled by the index of the successful attempt. The loop is unrolled up to
`fuel` iterations (`none` = still looping after `fuel` attempts); the second
component counts log lines, one per attempt. -/
def connect (dial : Nat → Bool) : Nat → Nat → Nat → Option Nat × Nat
  | _, logs, 0 => (none, logs)
  | k, logs, fuel + 1 =>
    if dial k then (some k, logs + 1)
    else connect dial (k + 1) (logs + 1) fuel

/-- The fate of one job under the worker pool, as a recursion over its attempt
outcomes (src/main.go lines 136-165 restricted to a single job id): attempts
classified transient are retried, the first non-transient attempt produces the
job's unique result. `out k` is the insert error of attempt `k`; the value is
`some (k, out k)` for the terminal attempt `k`, `none` while only transient
attempts have happened within `fuel`. -/
def processJob (out : Nat → Option GoErr) (k : Nat) : Nat → Option (Nat × Option GoErr)
  | 0 => none
  | fuel + 1 =>
    if isTransientErr (out k) then processJob out (k + 1) fuel
    else some (k, out k)

/-- The percentage of src/main.go line 88, `int(math.Ceil(float64(i) /
float64(n) * 100))`, embedded as the exact ceiling of the rational
`100 * i / n` (for the integer ranges involved the float64 computation is the
idealized exact ceiling). -/
def pct (n i : Nat) : Nat := (100 * i + (n - 1)) / n

/-- The progress-announcement part of the result loop, src/main.go lines
84-94: iterate `k` more times starting at loop index `i` with current
`announced`; on each iteration compute `pct n i`, and if it exceeds
`announced`, record it as announced and log it when it is a multiple of 5.
Returns the list of logged percentages in order. -/
def progressAux (n : Nat) : Nat → Nat → Nat → List Nat
  | 0, _, _ => []
  | k + 1, i, ann =>
    let p := pct n i
    if ann < p then
      (if p % 5 = 0 then [p] else []) ++ progressAux n k (i + 1) p
    else
      progressAux n k (i + 1) ann

/-- All progress percentages logged over a whole run of `n` jobs
(src/main.go lines 84-94: the loop body runs once per result consumed, with
`announced` starting at 0). -/
def progressRun (n : Nat) : List Nat := progressAux n n 0 0

/-- The result-consumption loop of src/main.go lines 85-103, with the progress
bookkeeping factored out (see `progressRun`): consume `n` results from the
stream, logging each failed one (`result.Error != nil`) and continuing.
Returns `(consumed results, logged failures)` in order, or `none` if the
stream ends early (the receive would block forever). -/
def resultLoop : Nat → List JobResult → Option (List JobResult × List JobResult)
  | 0, _ => some ([], [])
  | _ + 1, [] => none
  | n + 1, r :: rest =>
    match resultLoop n rest with
    | none => none
    | some (cons, fails) =>
      some (r :: cons, if (r.error).isSome then r :: fails else fails)

/-- Go int64 division as in src/main.go line 111
(`duration.Nanoseconds() / int64(*jobs)`): truncated division, panicking
(modelled as `none`) when the divisor is zero. -/
def goDivInt64 (a b : Int) : Option Int :=
  if b = 0 then none else some (Int.tdiv a b)

/-- The average-per-job computation of src/main.go lines 110-112: elapsed
nanoseconds integer-divided by the job count (the `time.Unix(0, ns).Sub`
round-trip is the identity on nanosecond counts). -/
def averagePerJobNs (elapsedNs : Int) (jobCount : Int) : Option Int :=
  goDivInt64 elapsedNs jobCount

/-- Modelled from the spec: `RunStatistics.succeeded` (spec section 3); the
code keeps no such counter, so it is the number of consumed results whose
error is `nil`. -/
def succeededCount (l : List JobResult) : Nat :=
  (l.filter fun r => (r.error).isNone).length

/-- Modelled from the spec: `RunStatistics.failed` (spec section 3); the code
keeps no such counter, so it is the number of consumed results whose error is
non-`nil`, i.e. the number of failures the result loop logs. -/
def failedCount (l : List JobResult) : Nat :=
  (l.filter fun r => (r.error).isSome).length

/-! ## Operational model of a run

A run of `main` (src/main.go lines 54-117) with its goroutines: the job
source (lines 77-81), the workers (lines 125-167) with their spawned retry
goroutines (lines 149-151), and the coordinator result loop (lines 84-108).
Scheduling nondeterminism is an explicit list of actions; each action is a
guarded atomic transition.  The result channel is modelled without its
capacity bound (a relaxation that only adds interleavings); worker
reconnection after a transient failure is folded into the worker step (the
`connect` loop is embedded separately above). -/

/-- Status of one worker goroutine: blocked on channel receive, processing a
job, or exited (its `for job := range queue` loop ended). -/
inductive WStat where
  | waiting
  | busy (jid : Nat)
  | stopped
deriving DecidableEq, Repr

/-- Run configuration: flag values `*jobs` and `*workers`, the job-queue
capacity (512 at src/main.go line 62), and the insert outcome oracle:
`oracle j k` is the error of attempt `k` on job `j`. -/
structure Cfg where
  jobs : Nat
  workers : Nat
  cap : Nat
  oracle : Nat → Nat → Option GoErr

/-- Global state of the run.  `src` is what the job-source goroutine has yet
to push, `pushed` (ghost) what it has pushed, `queue` the job channel buffer,
`closed` whether `close(queue)` has run, `wstats` the workers, `dispatches`
the jobs held by spawned retry goroutines that have not yet delivered,
`emitted` the result channel buffer, `consumed` what the coordinator has
received, `attempts j` the number of insert attempts made on job `j`, and
`dequeued` (ghost) the set of job ids that have been received off the job
queue at least once. -/
structure Sys where
  src : List Nat
  pushed : List Nat
  queue : List Nat
  closed : Bool
  wstats : List WStat
  dispatches : List Nat
  emitted : List JobResult
  consumed : List JobResult
  attempts : Nat → Nat
  dequeued : List Nat

/-- Scheduler actions: one atomic step of one goroutine. -/
inductive Act where
  | sourcePush
  | workerRecv (w : Nat)
  | workerRun (w : Nat)
  | retryPush (j : Nat)
  | coordConsume
  | coordClose
  | workerExit (w : Nat)

/-- Insert into the ghost `dequeued` set. -/
def insertNew (j : Nat) (l : List Nat) : List Nat :=
  if j ∈ l then l else j :: l

/-- Initial state: jobs 0..jobs-1 waiting at the source, empty channels, all
workers blocked on receive (their initial `connect` has returned). -/
def initSys (cfg : Cfg) : Sys :=
  { src := List.range cfg.jobs
    pushed := []
    queue := []
    closed := false
    wstats := List.replicate cfg.workers WStat.waiting
    dispatches := []
    emitted := []
    consumed := []
    attempts := fun _ => 0
    dequeued := [] }

/-- One scheduler step; `none` when the chosen action is not enabled.
* `sourcePush`: line 79, blocks while the buffer is full (and a send on a
  closed channel never happens in an execution we model as enabled).
* `workerRecv`: line 136, receive from the job channel.
* `workerRun`: lines 139-163, one insert attempt and its aftermath, via
  `workerBody`.
* `retryPush`: lines 149-151, a spawned retry goroutine delivers its job.
* `coordConsume`: line 97, one iteration's receive of the result loop.
* `coordClose`: line 108, `close(queue)` once all `jobs` results are in.
* `workerExit`: line 136, `range queue` ends once the queue is closed and
  drained. -/
def step (cfg : Cfg) (s : Sys) : Act → Option Sys
  | Act.sourcePush =>
    match s.src with
    | [] => none
    | j :: rest =>
      if s.closed = false ∧ s.queue.length < cfg.cap then
        some { s with src := rest, pushed := s.pushed ++ [j], queue := s.queue ++ [j] }
      else none
  | Act.workerRecv w =>
    match s.queue with
    | [] => none
    | j :: rest =>
      match s.wstats.get? w with
      | some WStat.waiting =>
        some { s with queue := rest, wstats := s.wstats.set w (WStat.busy j),
                      dequeued := insertNew j s.dequeued }
      | _ => none
  | Act.workerRun w =>
    match s.wstats.get? w with
    | some (WStat.busy j) =>
      let act := workerBody w j (cfg.oracle j (s.attempts j))
      some { s with
        wstats := s.wstats.set w WStat.waiting
        dispatches :=
          match act.redispatch with
          | some j2 => j2 :: s.dispatches
          | none => s.dispatches
        emitted :=
          match act.result with
          | some r => s.emitted ++ [r]
          | none => s.emitted
        attempts := fun m => if m = j then s.attempts j + 1 else s.attempts m }
    | _ => none
  | Act.retryPush j =>
    if j ∈ s.dispatches ∧ s.closed = false ∧ s.queue.length < cfg.cap then
      some { s with dispatches := s.dispatches.erase j, queue := s.queue ++ [j] }
    else none
  | Act.coordConsume =>
    if s.consumed.length < cfg.jobs then
      match s.emitted with
      | [] => none
      | r :: rest => some { s with emitted := rest, consumed := s.consumed ++ [r] }
    else none
  | Act.coordClose =>
    if s.consumed.length = cfg.jobs ∧ s.closed = false then
      some { s with closed := true }
    else none
  | Act.workerExit w =>
    if s.closed = true ∧ s.queue = [] then
      match s.wstats.get? w with
      | some WStat.waiting => some { s with wstats := s.wstats.set w WStat.stopped }
      | _ => none
    else none

/-- Run a whole schedule. -/
def run (cfg : Cfg) : List Act → Sys → Option Sys
  | [], s => some s
  | a :: rest, s =>
    match step cfg s a with
    | none => none
    | some s2 => run cfg rest s2

/-- Job ids currently held by workers. -/
def holdList (l : List WStat) : List Nat :=
  l.filterMap fun w =>
    match w with
    | WStat.busy j => some j
    | _ => none

/-- Job ids of all results sent so far (still buffered or already consumed). -/
def resultIds (s : Sys) : List Nat :=
  (s.emitted ++ s.consumed).map JobResult.jobId

/-- Every place a job not yet terminally resolved can live: at the source, in
the job-queue buffer, in a worker's hands, in a pending retry goroutine — plus
the ids of resolved (resulted) jobs. -/
def circ (s : Sys) : List Nat :=
  s.src ++ s.queue ++ holdList s.wstats ++ s.dispatches ++ resultIds s

/-- Number of jobs "in flight" in the sense of the spec's backpressure bound:
dequeued from the Job Queue at least once but not yet resulted. -/
def inFlight (s : Sys) : Nat :=
  (s.dequeued.filter fun j => !((resultIds s).contains j)).length

/-- `inFlight` read off an optional final state (0 for a stuck schedule). -/
def inFlightOpt : Option Sys → Nat
  | some s => inFlight s
  | none => 0

/-- The final state of a schedule, defaulting to the initial state when the
schedule is not enabled. -/
def outState (cfg : Cfg) (acts : List Act) : Sys :=
  (run cfg acts (initSys cfg)).getD (initSys cfg)

/-! ### Concrete runs used to witness the reachability theorems -/

/-- One job, one worker, inserts always succeed. -/
def cfgW1 : Cfg := { jobs := 1, workers := 1, cap := 512, oracle := fun _ _ => none }

/-- Full happy-path schedule for `cfgW1`. -/
def actsW1 : List Act :=
  [Act.sourcePush, Act.workerRecv 0, Act.workerRun 0, Act.coordConsume,
   Act.coordClose]

/-- One job whose first insert attempt loses the connection and whose retry
succeeds. -/
def cfgW2 : Cfg :=
  { jobs := 1, workers := 1, cap := 512,
    oracle := fun _ k => if k = 0 then some GoErr.eof else none }

/-- Schedule for `cfgW2`: first attempt transient, retry delivered, second
attempt succeeds, result consumed, queue closed. -/
def actsW2 : List Act :=
  [Act.sourcePush, Act.workerRecv 0, Act.workerRun 0, Act.retryPush 0,
   Act.workerRecv 0, Act.workerRun 0, Act.coordConsume, Act.coordClose]

/-- A result stream with one permanent failure and one success. -/
def streamW5 : List JobResult :=
  [{ jobId := 0, workerId := 0, error := some (GoErr.other "x") },
   { jobId := 1, workerId := 0, error := none }]

/-- Two jobs, one worker. -/
def cfgW6 : Cfg := { jobs := 2, workers := 1, cap := 512, oracle := fun _ _ => none }

/-- The source pushes both jobs. -/
def actsW6 : List Act := [Act.sourcePush, Act.sourcePush]

/-- One job, one worker, for the in-flight bound witness. -/
def cfgW7 : Cfg := { jobs := 1, workers := 1, cap := 512, oracle := fun _ _ => none }

/-- Push one job and hand it to the worker. -/
def actsW7 : List Act := [Act.sourcePush, Act.workerRecv 0]

/-- A dial oracle whose third attempt (index 2) succeeds. -/
def dialW8 : Nat → Bool := fun n => n == 2

/-- One job, one worker, used to witness the shutdown/average theorem. -/
def cfgW9 : Cfg := { jobs := 1, workers := 1, cap := 512, oracle := fun _ _ => none }

/-- Happy-path schedule for `cfgW9`. -/
def actsW9 : List Act :=
  [Act.sourcePush, Act.workerRecv 0, Act.workerRun 0, Act.coordConsume,
   Act.coordClose]

/-- A run configured with zero jobs (`--jobs=0`). -/
def cfg10 : Cfg := { jobs := 0, workers := 1, cap := 512, oracle := fun _ _ => none }

/-! ### The retry-dispatch pileup schedule

With the code's queue capacity 512 and a single worker, a scheduler that
never runs the spawned retry goroutines drives the system through cycles
source-push / worker-receive / worker-attempt (each attempt transient), so
the pending retry dispatches accumulate without bound. -/

/-- 515 jobs, 1 worker, capacity 512, every insert attempt loses the
connection. -/
def cfg7 : Cfg :=
  { jobs := 515, workers := 1, cap := 512, oracle := fun _ _ => some GoErr.eof }

/-- One pileup cycle: the source pushes a job, worker 0 receives it, worker 0
attempts it (transient, so a retry dispatch is spawned and never scheduled). -/
def cycleActs : List Act := [Act.sourcePush, Act.workerRecv 0, Act.workerRun 0]

/-- `t` pileup cycles. -/
def pileSchedule : Nat → List Act
  | 0 => []
  | t + 1 => pileSchedule t ++ cycleActs

/-- The state after `t` pileup cycles: jobs `0..t-1` each sit in a pending
retry dispatch, the queue is empty, the worker is idle, no result exists. -/
def pileState (t : Nat) : Sys :=
  { src := List.range' t (515 - t)
    pushed := List.range t
    queue := []
    closed := false
    wstats := [WStat.waiting]
    dispatches := (List.range t).reverse
    emitted := []
    consumed := []
    attempts := fun m => if m < t then 1 else 0
    dequeued := (List.range t).reverse }

/-! ## Reduction lemmas for `workerBody` -/

theorem workerBody_transient (id jid : Nat) (err : Option GoErr)
    (htr : isTransientErr err = true) :
    workerBody id jid err =
      { redispatch := some jid, reconnect := true, result := none } := by
  simp [workerBody, htr]

theorem workerBody_terminal (id jid : Nat) (err : Option GoErr)
    (htr : isTransientErr err = false) :
    workerBody id jid err =
      { redispatch := none, reconnect := false,
        result := some { jobId := jid, workerId := id, error := err } } := by
  simp [workerBody, htr]

/-! ## Helper lemmas about `holdList` -/

theorem holdList_nil : holdList [] = [] := rfl

theorem holdList_cons_busy (j : Nat) (t : List WStat) :
    holdList (WStat.busy j :: t) = j :: holdList t := rfl

theorem holdList_cons_waiting (t : List WStat) :
    holdList (WStat.waiting :: t) = holdList t := rfl

theorem holdList_cons_stopped (t : List WStat) :
    holdList (WStat.stopped :: t) = holdList t := rfl

theorem holdList_set_busy_perm (l : List WStat) (w j : Nat)
    (h : l.get? w = some WStat.waiting) :
    (holdList (l.set w (WStat.busy j))).Perm (j :: holdList l) := by
  induction l generalizing w with
  | nil => simp at h
  | cons x t ih =>
    cases w with
    | zero =>
      rw [List.get?_cons_zero] at h
      injection h with h
      subst h
      simp [holdList_cons_busy, holdList_cons_waiting]
    | succ w =>
      rw [List.get?_cons_succ] at h
      cases x with
      | waiting =>
        simpa [holdList_cons_waiting] using (ih w h)
      | stopped =>
        simpa [holdList_cons_stopped] using (ih w h)
      | busy j2 =>
        have h1 : (holdList (t.set w (WStat.busy j))).Perm (j :: holdList t) := ih w h
        show (holdList (WStat.busy j2 :: t.set w (WStat.busy j))).Perm
          (j :: holdList (WStat.busy j2 :: t))
        rw [holdList_cons_busy, holdList_cons_busy]
        exact (h1.cons j2).trans (List.Perm.swap j j2 _)

theorem holdList_set_free_perm (l : List WStat) (w j : Nat)
    (h : l.get? w = some (WStat.busy j)) :
    (j :: holdList (l.set w WStat.waiting)).Perm (holdList l) := by
  induction l generalizing w with
  | nil => simp at h
  | cons x t ih =>
    cases w with
    | zero =>
      rw [List.get?_cons_zero] at h
      injection h with h
      subst h
      simp [holdList_cons_busy, holdList_cons_waiting]
    | succ w =>
      rw [List.get?_cons_succ] at h
      cases x with
      | waiting =>
        simpa [holdList_cons_waiting] using (ih w h)
      | stopped =>
        simpa [holdList_cons_stopped] using (ih w h)
      | busy j2 =>
        have h1 : (j :: holdList (t.set w WStat.waiting)).Perm (holdList t) := ih w h
        show (j :: holdList (WStat.busy j2 :: t.set w WStat.waiting)).Perm
          (holdList (WStat.busy j2 :: t))
        rw [holdList_cons_busy, holdList_cons_busy]
        exact (List.Perm.swap j2 j _).trans (h1.cons j2)

theorem holdList_set_stop (l : List WStat) (w : Nat)
    (h : l.get? w = some WStat.waiting) :
    holdList (l.set w WStat.stopped) = holdList l := by
  induction l generalizing w with
  | nil => simp at h
  | cons x t ih =>
    cases w with
    | zero =>
      rw [List.get?_cons_zero] at h
      injection h with h
      subst h
      simp [holdList_cons_waiting, holdList_cons_stopped]
    | succ w =>
      rw [List.get?_cons_succ] at h
      cases x with
      | waiting => simp [holdList_cons_waiting, ih w h]
      | stopped => simp [holdList_cons_stopped, ih w h]
      | busy j2 => simp [holdList_cons_busy, ih w h]

theorem mem_holdList_of_get? (l : List WStat) (w j : Nat)
    (h : l.get? w = some (WStat.busy j)) : j ∈ holdList l :=
  (holdList_set_free_perm l w j h).mem_iff.mp (List.mem_cons_self j _)

/-! ## The run invariant -/

/-- Invariant of every reachable state: conservation of jobs (each id below
`jobs` lives in exactly one place, counting a terminal result as a place),
the source output is a prefix of `0..jobs-1`, the coordinator never consumes
more than `jobs` results and closes only at exactly `jobs`, the worker pool
has fixed size, every result ever sent is tagged with a valid worker and job
id and records the error of a non-transient (terminal) attempt, and the ghost
dequeued set holds distinct valid ids. -/
structure WF (cfg : Cfg) (s : Sys) : Prop where
  hcirc : ∀ j, (circ s).count j = if j < cfg.jobs then 1 else 0
  hpushed : s.pushed ++ s.src = List.range cfg.jobs
  hconsumed : s.consumed.length ≤ cfg.jobs
  hclosed : s.closed = true → s.consumed.length = cfg.jobs
  hwlen : s.wstats.length = cfg.workers
  hres : ∀ r ∈ s.emitted ++ s.consumed,
    r.workerId < cfg.workers ∧ r.jobId < cfg.jobs ∧
    ∃ k, k < s.attempts r.jobId ∧ cfg.oracle r.jobId k = r.error ∧
      isTransientErr r.error = false
  hdq : s.dequeued.Nodup
  hdqlt : ∀ j ∈ s.dequeued, j < cfg.jobs

theorem lt_jobs_of_mem_circ {cfg : Cfg} {s : Sys}
    (hc : ∀ j, (circ s).count j = if j < cfg.jobs then 1 else 0)
    {j : Nat} (hj : j ∈ circ s) : j < cfg.jobs := by
  have hpos : 0 < (circ s).count j := List.count_pos_iff.mpr hj
  rw [hc j] at hpos
  by_contra hlt
  simp [hlt] at hpos

theorem wf_init (cfg : Cfg) : WF cfg (initSys cfg) := by
  refine ⟨?_, ?_, ?_, ?_, ?_, ?_, ?_, ?_⟩
  · intro j
    have hnil : holdList (List.replicate cfg.workers WStat.waiting) = [] := by
      induction cfg.workers with
      | zero => rfl
      | succ n ih => simpa [List.replicate_succ, holdList_cons_waiting] using ih
    by_cases hj : j < cfg.jobs
    · simp [circ, initSys, resultIds, hnil, hj,
        List.count_eq_one_of_mem (List.nodup_range _) (List.mem_range.mpr hj)]
    · simp [circ, initSys, resultIds, hnil, hj, List.count_eq_zero_of_not_mem,
        List.mem_range]
  · simp [initSys]
  · simp [initSys]
  · simp [initSys]
  · simp [initSys]
  · simp [initSys]
  · simp [initSys]
  · simp [initSys]

theorem wf_sourcePush {cfg : Cfg} {s s2 : Sys}
    (h : step cfg s Act.sourcePush = some s2) (hw : WF cfg s) : WF cfg s2 := by
  match hsrc : s.src with
  | [] => rw [step, hsrc] at h; exact absurd h (by simp)
  | j :: rest =>
    rw [step, hsrc] at h
    simp only [] at h
    by_cases hcond : s.closed = false ∧ s.queue.length < cfg.cap
    · rw [if_pos hcond] at h
      injection h with h
      subst h
      refine ⟨?_, ?_, hw.hconsumed, hw.hclosed, hw.hwlen, hw.hres, hw.hdq, hw.hdqlt⟩
      · intro m
        have hc := hw.hcirc m
        rw [circ, hsrc] at hc
        by_cases hm : m = j
        · subst hm
          simp only [circ, resultIds, List.count_append, List.count_cons_self,
            List.count_nil] at hc ⊢
          omega
        · simp only [circ, resultIds, List.count_append,
            List.count_cons_of_ne hm, List.count_nil] at hc ⊢
          omega
      · have hp := hw.hpushed
        rw [hsrc] at hp
        simpa using hp
    · rw [if_neg hcond] at h
      exact absurd h (by simp)

theorem wf_workerRecv {cfg : Cfg} {s s2 : Sys} {w : Nat}
    (h : step cfg s (Act.workerRecv w) = some s2) (hw : WF cfg s) : WF cfg s2 := by
  match hq : s.queue with
  | [] => rw [step, hq] at h; exact absurd h (by simp)
  | j :: rest =>
    rw [step, hq] at h
    simp only [] at h
    match hget : s.wstats.get? w with
    | none => rw [hget] at h; exact absurd h (by simp)
    | some (WStat.busy j2) => rw [hget] at h; exact absurd h (by simp)
    | some WStat.stopped => rw [hget] at h; exact absurd h (by simp)
    | some WStat.waiting =>
      rw [hget] at h
      simp only [] at h
      injection h with h
      subst h
      have hjlt : j < cfg.jobs := by
        refine lt_jobs_of_mem_circ hw.hcirc ?_
        rw [circ, hq]
        simp
      refine ⟨?_, hw.hpushed, hw.hconsumed, hw.hclosed, ?_, hw.hres, ?_, ?_⟩
      · intro m
        have hc := hw.hcirc m
        rw [circ, hq] at hc
        have hcnt := (holdList_set_busy_perm s.wstats w j hget).count_eq m
        by_cases hm : m = j
        · subst hm
          simp only [circ, resultIds, List.count_append, List.count_cons_self] at hc hcnt ⊢
          omega
        · simp only [circ, resultIds, List.count_append,
            List.count_cons_of_ne hm] at hc hcnt ⊢
          omega
      · simpa using hw.hwlen
      · show (insertNew j s.dequeued).Nodup
        by_cases hmem : j ∈ s.dequeued
        · simpa [insertNew, hmem] using hw.hdq
        · rw [insertNew, if_neg hmem]
          exact List.nodup_cons.mpr ⟨hmem, hw.hdq⟩
      · intro m hm
        show m < cfg.jobs
        by_cases hmem : j ∈ s.dequeued
        · exact hw.hdqlt m (by simpa [insertNew, hmem] using hm)
        · rcases by simpa [insertNew, hmem] using hm with h1 | h1
          · exact h1 ▸ hjlt
          · exact hw.hdqlt m h1

theorem wf_workerRun {cfg : Cfg} {s s2 : Sys} {w : Nat}
    (h : step cfg s (Act.workerRun w) = some s2) (hw : WF cfg s) : WF cfg s2 := by
  match hget : s.wstats.get? w with
  | none => rw [step, hget] at h; exact absurd h (by simp)
  | some WStat.waiting => rw [step, hget] at h; exact absurd h (by simp)
  | some WStat.stopped => rw [step, hget] at h; exact absurd h (by simp)
  | some (WStat.busy j) =>
    rw [step, hget] at h
    simp only [] at h
    have hjlt : j < cfg.jobs :=
      lt_jobs_of_mem_circ hw.hcirc
        (by simp [circ, List.mem_append, mem_holdList_of_get? s.wstats w j hget])
    have hwlt : w < cfg.workers := by
      have := List.get?_eq_some.mp hget
      rw [← hw.hwlen]
      exact this.1
    have hcnt := (holdList_set_free_perm s.wstats w j hget).count_eq
    cases htr : isTransientErr (cfg.oracle j (s.attempts j)) with
    | true =>
      rw [workerBody_transient w j _ htr] at h
      simp only [] at h
      injection h with h
      subst h
      refine ⟨?_, hw.hpushed, hw.hconsumed, hw.hclosed, ?_, ?_, hw.hdq, hw.hdqlt⟩
      · intro m
        have hc := hw.hcirc m
        have hm2 := hcnt m
        by_cases hm : m = j
        · subst hm
          rw [List.count_cons_self] at hm2
          simp only [circ, resultIds, List.count_append, List.count_cons_self] at hc ⊢
          omega
        · rw [List.count_cons_of_ne hm] at hm2
          simp only [circ, resultIds, List.count_append,
            List.count_cons_of_ne hm] at hc ⊢
          omega
      · simpa using hw.hwlen
      · intro r hr
        obtain ⟨h1, h2, k, hk, ho, ht⟩ := hw.hres r hr
        refine ⟨h1, h2, k, ?_, ho, ht⟩
        show k < if r.jobId = j then s.attempts j + 1 else s.attempts r.jobId
        by_cases hrj : r.jobId = j
        · rw [if_pos hrj]; rw [hrj] at hk; omega
        · rw [if_neg hrj]; exact hk
    | false =>
      rw [workerBody_terminal w j _ htr] at h
      simp only [] at h
      injection h with h
      subst h
      refine ⟨?_, hw.hpushed, hw.hconsumed, hw.hclosed, ?_, ?_, hw.hdq, hw.hdqlt⟩
      · intro m
        have hc := hw.hcirc m
        have hm2 := hcnt m
        by_cases hm : m = j
        · subst hm
          rw [List.count_cons_self] at hm2
          simp only [circ, resultIds, List.count_append, List.map_append,
            List.map_cons, List.map_nil, List.count_cons_self,
            List.count_nil] at hc ⊢
          omega
        · rw [List.count_cons_of_ne hm] at hm2
          simp only [circ, resultIds, List.count_append, List.map_append,
            List.map_cons, List.map_nil, List.count_cons_of_ne hm,
            List.count_nil] at hc ⊢
          omega
      · simpa using hw.hwlen
      · intro r hr
        have hr2 : (r ∈ s.emitted ∨ r ∈ s.consumed) ∨
            r = { jobId := j, workerId := w, error := cfg.oracle j (s.attempts j) } := by
          rcases List.mem_append.mp hr with h1 | h1
          · rcases List.mem_append.mp h1 with h2 | h2
            · exact Or.inl (Or.inl h2)
            · exact Or.inr (by simpa using h2)
          · exact Or.inl (Or.inr h1)
        rcases hr2 with h1 | h1
        · obtain ⟨ha, hb, k, hk, ho, ht⟩ := hw.hres r (List.mem_append.mpr h1)
          refine ⟨ha, hb, k, ?_, ho, ht⟩
          show k < if r.jobId = j then s.attempts j + 1 else s.attempts r.jobId
          by_cases hrj : r.jobId = j
          · rw [if_pos hrj]; rw [hrj] at hk; omega
          · rw [if_neg hrj]; exact hk
        · subst h1
          refine ⟨hwlt, hjlt, s.attempts j, ?_, rfl, htr⟩
          simp

theorem wf_retryPush {cfg : Cfg} {s s2 : Sys} {j : Nat}
    (h : step cfg s (Act.retryPush j) = some s2) (hw : WF cfg s) : WF cfg s2 := by
  rw [step] at h
  by_cases hcond : j ∈ s.dispatches ∧ s.closed = false ∧ s.queue.length < cfg.cap
  · rw [if_pos hcond] at h
    injection h with h
    subst h
    refine ⟨?_, hw.hpushed, hw.hconsumed, hw.hclosed, hw.hwlen, hw.hres,
      hw.hdq, hw.hdqlt⟩
    intro m
    have hc := hw.hcirc m
    have hdpos : 0 < s.dispatches.count j := List.count_pos_iff.mpr hcond.1
    by_cases hm : m = j
    · subst hm
      have he : (s.dispatches.erase m).count m = s.dispatches.count m - 1 :=
        List.count_erase_self m s.dispatches
      simp only [circ, resultIds, List.count_append, List.count_cons_self,
        List.count_nil] at hc ⊢
      omega
    · have he : (s.dispatches.erase j).count m = s.dispatches.count m :=
        List.count_erase_of_ne hm s.dispatches
      simp only [circ, resultIds, List.count_append, List.count_cons_of_ne hm,
        List.count_nil] at hc ⊢
      omega
  · rw [if_neg hcond] at h
    exact absurd h (by simp)

theorem wf_coordConsume {cfg : Cfg} {s s2 : Sys}
    (h : step cfg s Act.coordConsume = some s2) (hw : WF cfg s) : WF cfg s2 := by
  rw [step] at h
  by_cases hlen : s.consumed.length < cfg.jobs
  · rw [if_pos hlen] at h
    match hem : s.emitted with
    | [] => rw [hem] at h; exact absurd h (by simp)
    | r :: rest =>
      rw [hem] at h
      simp only [] at h
      injection h with h
      subst h
      refine ⟨?_, hw.hpushed, ?_, ?_, hw.hwlen, ?_, hw.hdq, hw.hdqlt⟩
      · intro m
        have hc := hw.hcirc m
        by_cases hm : m = r.jobId
        · subst hm
          simp only [circ, resultIds, hem, List.count_append, List.map_append,
            List.map_cons, List.map_nil, List.count_cons_self,
            List.count_nil] at hc ⊢
          omega
        · simp only [circ, resultIds, hem, List.count_append, List.map_append,
            List.map_cons, List.map_nil, List.count_cons_of_ne hm,
            List.count_nil] at hc ⊢
          omega
      · simpa using hlen
      · intro hcl
        exact absurd (hw.hclosed hcl) (by omega)
      · intro r2 hr2
        refine hw.hres r2 ?_
        rw [hem]
        rcases List.mem_append.mp hr2 with h1 | h1
        · exact List.mem_append.mpr (Or.inl (List.mem_cons_of_mem r h1))
        · rcases List.mem_append.mp h1 with h2 | h2
          · exact List.mem_append.mpr (Or.inr h2)
          · simp at h2
            subst h2
            exact List.mem_append.mpr (Or.inl (List.mem_cons_self _ _))
  · rw [if_neg hlen] at h
    exact absurd h (by simp)

theorem wf_coordClose {cfg : Cfg} {s s2 : Sys}
    (h : step cfg s Act.coordClose = some s2) (hw : WF cfg s) : WF cfg s2 := by
  rw [step] at h
  by_cases hcond : s.consumed.length = cfg.jobs ∧ s.closed = false
  · rw [if_pos hcond] at h
    injection h with h
    subst h
    exact ⟨hw.hcirc, hw.hpushed, hw.hconsumed, fun _ => hcond.1, hw.hwlen,
      hw.hres, hw.hdq, hw.hdqlt⟩
  · rw [if_neg hcond] at h
    exact absurd h (by simp)

theorem wf_workerExit {cfg : Cfg} {s s2 : Sys} {w : Nat}
    (h : step cfg s (Act.workerExit w) = some s2) (hw : WF cfg s) : WF cfg s2 := by
  rw [step] at h
  by_cases hcond : s.closed = true ∧ s.queue = []
  · rw [if_pos hcond] at h
    match hget : s.wstats.get? w with
    | none => rw [hget] at h; exact absurd h (by simp)
    | some (WStat.busy j2) => rw [hget] at h; exact absurd h (by simp)
    | some WStat.stopped => rw [hget] at h; exact absurd h (by simp)
    | some WStat.waiting =>
      rw [hget] at h
      simp only [] at h
      injection h with h
      subst h
      refine ⟨?_, hw.hpushed, hw.hconsumed, hw.hclosed, ?_, hw.hres,
        hw.hdq, hw.hdqlt⟩
      · intro m
        have hc := hw.hcirc m
        simpa [circ, holdList_set_stop s.wstats w hget] using hc
      · simpa using hw.hwlen
  · rw [if_neg hcond] at h
    exact absurd h (by simp)

theorem wf_step {cfg : Cfg} {s s2 : Sys} {a : Act}
    (h : step cfg s a = some s2) (hw : WF cfg s) : WF cfg s2 := by
  cases a with
  | sourcePush => exact wf_sourcePush h hw
  | workerRecv w => exact wf_workerRecv h hw
  | workerRun w => exact wf_workerRun h hw
  | retryPush j => exact wf_retryPush h hw
  | coordConsume => exact wf_coordConsume h hw
  | coordClose => exact wf_coordClose h hw
  | workerExit w => exact wf_workerExit h hw

theorem wf_run {cfg : Cfg} (acts : List Act) :
    ∀ s s2 : Sys, run cfg acts s = some s2 → WF cfg s → WF cfg s2 := by
  induction acts with
  | nil =>
    intro s s2 h hw
    rw [run] at h
    injection h with h
    subst h
    exact hw
  | cons a rest ih =>
    intro s s2 h hw
    rw [run] at h
    match hs : step cfg s a with
    | none => rw [hs] at h; exact absurd h (by simp)
    | some smid =>
      rw [hs] at h
      simp only [] at h
      exact ih smid s2 h (wf_step hs hw)

/-- Every state reachable from the initial one satisfies the invariant. -/
theorem wf_reach {cfg : Cfg} {acts : List Act} {s : Sys}
    (h : run cfg acts (initSys cfg) = some s) : WF cfg s :=
  wf_run acts (initSys cfg) s h (wf_init cfg)

/-! ## Lemmas about `connect` -/

theorem connect_none_of_no_dial {dial : Nat → Bool} (hd : ∀ n, dial n = false) :
    ∀ fuel k logs, (connect dial k logs fuel).1 = none := by
  intro fuel
  induction fuel with
  | zero => intro k logs; rfl
  | succ fuel ih =>
    intro k logs
    rw [connect, hd k]
    simpa using ih (k + 1) (logs + 1)

theorem connect_result_dial {dial : Nat → Bool} :
    ∀ fuel k logs h, (connect dial k logs fuel).1 = some h → dial h = true := by
  intro fuel
  induction fuel with
  | zero => intro k logs h hc; exact absurd hc (by simp [connect])
  | succ fuel ih =>
    intro k logs h hc
    rw [connect] at hc
    by_cases hk : dial k = true
    · rw [if_pos hk] at hc
      simp at hc
      exact hc ▸ hk
    · rw [if_neg hk] at hc
      exact ih (k + 1) (logs + 1) h hc

theorem connect_first_success {dial : Nat → Bool} :
    ∀ j fuel k logs, j < fuel → dial (k + j) = true →
      (∀ m < j, dial (k + m) = false) →
      connect dial k logs fuel = (some (k + j), logs + j + 1) := by
  intro j
  induction j with
  | zero =>
    intro fuel k logs hf hd _
    match fuel, hf with
    | fuel + 1, _ =>
      rw [connect, if_pos (by simpa using hd)]
      simp
  | succ j ih =>
    intro fuel k logs hf hd hm
    match fuel, hf with
    | fuel + 1, hf =>
      have hk : dial k = false := by simpa using hm 0 (Nat.succ_pos j)
      rw [connect, if_neg (by simp [hk])]
      have := ih fuel (k + 1) (logs + 1) (by omega)
        (by have := hd; rw [show k + 1 + j = k + (j + 1) by omega]; exact this)
        (fun m hmj => by
          have := hm (m + 1) (by omega)
          rw [show k + 1 + m = k + (m + 1) by omega]
          exact this)
      rw [this]
      refine Prod.ext ?_ ?_ <;> simp <;> omega

/-! ## Lemmas about `processJob` -/

theorem processJob_terminal (out : Nat → Option GoErr) :
    ∀ m k, isTransientErr (out (k + m)) = false →
      ∃ j, processJob out k (m + 1) = some (j, out j) ∧
        isTransientErr (out j) = false := by
  intro m
  induction m with
  | zero =>
    intro k h
    simp only [Nat.add_zero] at h
    exact ⟨k, by rw [processJob, if_neg (by simp [h])], h⟩
  | succ m ih =>
    intro k h
    by_cases hk : isTransientErr (out k) = true
    · have := ih (k + 1) (by rw [show k + 1 + m = k + (m + 1) by omega]; exact h)
      obtain ⟨j, hj, hjt⟩ := this
      exact ⟨j, by rw [processJob, if_pos hk]; exact hj, hjt⟩
    · have hk2 : isTransientErr (out k) = false := by
        cases hb : isTransientErr (out k)
        · rfl
        · exact absurd hb hk
      exact ⟨k, by rw [processJob, if_neg (by simp [hk2])], hk2⟩

/-! ## Lemmas about `resultLoop` -/

theorem resultLoop_eq :
    ∀ (n : Nat) (stream : List JobResult), n ≤ stream.length →
      resultLoop n stream =
        some (stream.take n,
          (stream.take n).filter fun r => (r.error).isSome) := by
  intro n
  induction n with
  | zero => intro stream _; simp [resultLoop]
  | succ n ih =>
    intro stream hlen
    match stream with
    | [] => simp at hlen
    | r :: rest =>
      rw [resultLoop, ih rest (by simpa using hlen)]
      simp only [List.take_succ_cons, List.filter_cons]

/-! ## Lemmas about the progress announcements -/

theorem pct_le_100 (n i : Nat) (hi : i < n) : pct n i ≤ 100 := by
  have hn : 0 < n := by omega
  have hlt : 100 * i + (n - 1) < 101 * n := by omega
  have := (Nat.div_lt_iff_lt_mul hn).mpr hlt
  rw [pct]
  omega

theorem pct_zero (n : Nat) : pct n 0 = 0 := by
  match n with
  | 0 => rfl
  | m + 1 =>
    show (100 * 0 + (m + 1 - 1)) / (m + 1) = 0
    simp only [Nat.mul_zero, Nat.zero_add, Nat.add_sub_cancel]
    exact Nat.div_eq_of_lt (by omega)

theorem pct_succ_le (n i : Nat) (hn : 100 ≤ n) : pct n (i + 1) ≤ pct n i + 1 := by
  have h1 : 100 * (i + 1) + (n - 1) ≤ (100 * i + (n - 1)) + n := by omega
  have h2 : (100 * (i + 1) + (n - 1)) / n ≤ ((100 * i + (n - 1)) + n) / n :=
    Nat.div_le_div_right h1
  rw [Nat.add_div_right _ (by omega : 0 < n)] at h2
  rw [pct, pct]
  omega

theorem pct_last (n : Nat) (hn : 101 ≤ n) : pct n (n - 1) = 100 := by
  have hnum : 100 * (n - 1) + (n - 1) = (n - 101) + n * 100 := by omega
  rw [pct, hnum, Nat.add_mul_div_left _ _ (by omega : 0 < n),
    Nat.div_eq_of_lt (by omega : n - 101 < n)]

theorem progressAux_mem (n : Nat) :
    ∀ k i ann, i + k ≤ n →
      ∀ v ∈ progressAux n k i ann, ann < v ∧ v % 5 = 0 ∧ v ≤ 100 := by
  intro k
  induction k with
  | zero => intro i ann _ v hv; simp [progressAux] at hv
  | succ k ih =>
    intro i ann hik v hv
    rw [progressAux] at hv
    by_cases hp : ann < pct n i
    · rw [if_pos hp] at hv
      rcases List.mem_append.mp hv with h1 | h1
      · by_cases h5 : pct n i % 5 = 0
        · rw [if_pos h5] at h1
          simp at h1
          subst h1
          exact ⟨hp, h5, pct_le_100 n i (by omega)⟩
        · rw [if_neg h5] at h1
          simp at h1
      · have := ih (i + 1) (pct n i) (by omega) v h1
        exact ⟨by omega, this.2⟩
    · rw [if_neg hp] at hv
      exact ih (i + 1) ann (by omega) v hv

theorem progressAux_pairwise (n : Nat) :
    ∀ k i ann, i + k ≤ n → (progressAux n k i ann).Pairwise (· < ·) := by
  intro k
  induction k with
  | zero => intro i ann _; simp [progressAux]
  | succ k ih =>
    intro i ann hik
    rw [progressAux]
    by_cases hp : ann < pct n i
    · rw [if_pos hp]
      by_cases h5 : pct n i % 5 = 0
      · rw [if_pos h5]
        simp only [List.singleton_append]
        refine List.pairwise_cons.mpr ⟨?_, ih (i + 1) (pct n i) (by omega)⟩
        intro v hv
        exact (progressAux_mem n k (i + 1) (pct n i) (by omega) v hv).1
      · rw [if_neg h5]
        simpa using ih (i + 1) (pct n i) (by omega)
    · rw [if_neg hp]
      exact ih (i + 1) ann (by omega)

theorem progressAux_cover (n : Nat) (hn : 101 ≤ n) :
    ∀ k i ann v, i + k = n → pct n i ≤ ann + 1 → pct n (i - 1) ≤ ann →
      ann < v → v ≤ 100 → v % 5 = 0 → v ∈ progressAux n k i ann := by
  intro k
  induction k with
  | zero =>
    intro i ann v hik h1 h2 h3 h4 _
    have hi : i = n := by omega
    rw [hi, pct_last n hn] at h2
    exact absurd h3 (by omega)
  | succ k ih =>
    intro i ann v hik h1 h2 h3 h4 h5
    rw [progressAux]
    by_cases hp : ann < pct n i
    · rw [if_pos hp]
      have hp1 : pct n i = ann + 1 := by omega
      by_cases hv : v = pct n i
      · subst hv
        rw [if_pos h5]
        exact List.mem_append.mpr (Or.inl (List.mem_singleton.mpr rfl))
      · refine List.mem_append.mpr (Or.inr ?_)
        refine ih (i + 1) (pct n i) v (by omega)
          (pct_succ_le n i (by omega)) ?_ (by omega) h4 h5
        simp
    · rw [if_neg hp]
      refine ih (i + 1) ann v (by omega) ?_ ?_ h3 h4 h5
      · have := pct_succ_le n i (by omega)
        omega
      · simpa using le_of_not_lt hp

/-- Soundness of the emitted progress percentages over a whole run: strictly
increasing (hence each at most once), each a positive multiple of 5, none
above 100. -/
theorem progressRun_sound (n : Nat) :
    (progressRun n).Pairwise (· < ·) ∧
      ∀ v ∈ progressRun n, 0 < v ∧ v % 5 = 0 ∧ v ≤ 100 := by
  constructor
  · exact progressAux_pairwise n n 0 0 (by omega)
  · intro v hv
    have := progressAux_mem n n 0 0 (by omega) v hv
    exact ⟨by omega, this.2⟩

/-- Completeness for large runs: when `101 ≤ n` every 5%-aligned threshold
5, 10, ..., 100 is announced. -/
theorem progressRun_cover (n : Nat) (hn : 101 ≤ n) :
    ∀ v, 0 < v → v ≤ 100 → v % 5 = 0 → v ∈ progressRun n := by
  intro v h1 h2 h3
  refine progressAux_cover n hn n 0 0 v (by omega) ?_ ?_ h1 h2 h3
  · rw [pct_zero]; omega
  · simp [pct_zero]

/-! ## Corollaries of the invariant -/

theorem succeededCount_add_failedCount (l : List JobResult) :
    succeededCount l + failedCount l = l.length := by
  induction l with
  | nil => rfl
  | cons r t ih =>
    cases hb : r.error <;>
      simp [succeededCount, failedCount, List.filter_cons, hb] at ih ⊢ <;>
      omega

theorem length_le_of_nodup_lt (l : List Nat) (n : Nat) (hnd : l.Nodup)
    (hlt : ∀ x ∈ l, x < n) : l.length ≤ n := by
  calc l.length = l.toFinset.card := (List.toFinset_card_of_nodup hnd).symm
    _ ≤ (Finset.range n).card := by
        refine Finset.card_le_card ?_
        intro x hx
        exact Finset.mem_range.mpr (hlt x (List.mem_toFinset.mp hx))
    _ = n := Finset.card_range n

theorem resultIds_count_le_one {cfg : Cfg} {s : Sys} (hw : WF cfg s) (m : Nat) :
    (resultIds s).count m ≤ 1 := by
  have hc := hw.hcirc m
  simp only [circ, List.count_append] at hc
  by_cases hm : m < cfg.jobs <;> simp [hm] at hc <;> omega

theorem lt_jobs_of_mem_resultIds {cfg : Cfg} {s : Sys} (hw : WF cfg s) {m : Nat}
    (hm : m ∈ resultIds s) : m < cfg.jobs :=
  lt_jobs_of_mem_circ hw.hcirc (by
    rw [circ]
    exact List.mem_append.mpr (Or.inr hm))

/-- In a completed run (all `jobs` results consumed) every job id below
`jobs` has exactly one result, and the result buffer has been drained. -/
theorem resultIds_complete {cfg : Cfg} {s : Sys} (hw : WF cfg s)
    (hdone : s.consumed.length = cfg.jobs) :
    s.emitted = [] ∧ ∀ j < cfg.jobs, (resultIds s).count j = 1 := by
  have hnd : (resultIds s).Nodup :=
    List.nodup_iff_count_le_one.mpr (resultIds_count_le_one hw)
  have hlt : ∀ x ∈ resultIds s, x < cfg.jobs :=
    fun x hx => lt_jobs_of_mem_resultIds hw hx
  have hlen_le : (resultIds s).length ≤ cfg.jobs :=
    length_le_of_nodup_lt _ _ hnd hlt
  have hlen : (resultIds s).length = s.emitted.length + s.consumed.length := by
    rw [resultIds, List.length_map, List.length_append]
  have hem : s.emitted = [] := by
    have : s.emitted.length = 0 := by omega
    exact List.length_eq_zero.mp this
  refine ⟨hem, ?_⟩
  have hcard : (resultIds s).toFinset = Finset.range cfg.jobs := by
    refine Finset.eq_of_subset_of_card_le ?_ ?_
    · intro x hx
      exact Finset.mem_range.mpr (hlt x (List.mem_toFinset.mp hx))
    · rw [Finset.card_range, List.toFinset_card_of_nodup hnd]
      omega
  intro j hj
  have hmem : j ∈ resultIds s := by
    have : j ∈ (resultIds s).toFinset := by
      rw [hcard]
      exact Finset.mem_range.mpr hj
    exact List.mem_toFinset.mp this
  exact List.count_eq_one_of_mem hnd hmem

/-! ## Reachability of the retry-dispatch pileup -/

theorem run_append (cfg : Cfg) (acts1 acts2 : List Act) :
    ∀ s, run cfg (acts1 ++ acts2) s =
      match run cfg acts1 s with
      | none => none
      | some s2 => run cfg acts2 s2 := by
  induction acts1 with
  | nil => intro s; rw [List.nil_append, run]
  | cons a rest ih =>
    intro s
    rw [List.cons_append, run]
    cases hs : step cfg s a with
    | none => rw [run, hs]
    | some s2 =>
      rw [run, hs]
      exact ih s2

theorem pileState_zero : pileState 0 = initSys cfg7 := by
  rw [pileState, initSys]
  simp [cfg7, List.range_eq_range']

theorem pileState_cycle (t : Nat) (ht : t < 515) :
    run cfg7 cycleActs (pileState t) = some (pileState (t + 1)) := by
  have hsrc : (pileState t).src = t :: List.range' (t + 1) (514 - t) := by
    show List.range' t (515 - t) = _
    rw [show 515 - t = (514 - t) + 1 from by omega, List.range'_succ]
  have hins : insertNew t ((List.range t).reverse) = t :: (List.range t).reverse := by
    rw [insertNew, if_neg (by simp)]
  have h1 : step cfg7 (pileState t) Act.sourcePush = some
      { src := List.range' (t + 1) (514 - t)
        pushed := List.range t ++ [t]
        queue := [t]
        closed := false
        wstats := [WStat.waiting]
        dispatches := (List.range t).reverse
        emitted := []
        consumed := []
        attempts := fun m => if m < t then 1 else 0
        dequeued := (List.range t).reverse } := by
    rw [step, hsrc]
    rfl
  have h2 : step cfg7
      { src := List.range' (t + 1) (514 - t)
        pushed := List.range t ++ [t]
        queue := [t]
        closed := false
        wstats := [WStat.waiting]
        dispatches := (List.range t).reverse
        emitted := []
        consumed := []
        attempts := fun m => if m < t then 1 else 0
        dequeued := (List.range t).reverse } (Act.workerRecv 0) = some
      { src := List.range' (t + 1) (514 - t)
        pushed := List.range t ++ [t]
        queue := []
        closed := false
        wstats := [WStat.busy t]
        dispatches := (List.range t).reverse
        emitted := []
        consumed := []
        attempts := fun m => if m < t then 1 else 0
        dequeued := t :: (List.range t).reverse } := by
    rw [step]
    simp only []
    rw [hins]
    rfl
  have hS :
      (⟨List.range' (t + 1) (514 - t), List.range t ++ [t], [], false,
        [WStat.waiting], t :: (List.range t).reverse, [], [],
        fun m => if m = t then (if t < t then 1 else 0) + 1 else
          if m < t then 1 else 0,
        t :: (List.range t).reverse⟩ : Sys) = pileState (t + 1) := by
    rw [pileState]
    congr 1
    · rw [show 515 - (t + 1) = 514 - t from by omega]
    · exact (List.range_succ t).symm
    · rw [List.range_succ, List.reverse_append]
      rfl
    · funext m
      by_cases hm : m = t
      · subst hm
        simp
      · by_cases hm2 : m < t
        · rw [if_neg hm, if_pos hm2, if_pos (by omega)]
        · rw [if_neg hm, if_neg hm2, if_neg (by omega)]
    · rw [List.range_succ, List.reverse_append]
      rfl
  have h3 : step cfg7
      { src := List.range' (t + 1) (514 - t)
        pushed := List.range t ++ [t]
        queue := []
        closed := false
        wstats := [WStat.busy t]
        dispatches := (List.range t).reverse
        emitted := []
        consumed := []
        attempts := fun m => if m < t then 1 else 0
        dequeued := t :: (List.range t).reverse } (Act.workerRun 0) = some
      (pileState (t + 1)) := by
    rw [← hS]
    rfl
  show run cfg7 [Act.sourcePush, Act.workerRecv 0, Act.workerRun 0]
    (pileState t) = _
  simp only [run, h1, h2, h3]

theorem pileState_reach : ∀ t, t ≤ 514 →
    run cfg7 (pileSchedule t) (initSys cfg7) = some (pileState t) := by
  intro t
  induction t with
  | zero => intro _; rw [pileSchedule, run, pileState_zero]
  | succ t ih =>
    intro ht
    rw [pileSchedule, run_append, ih (by omega)]
    exact pileState_cycle t (by omega)

/-! ## Claim theorems -/

/-- C1: for every run with `jobCount = N` and `workerCount = W > 0`, the
coordinator's result loop consumes at most N results, and whenever it has
closed the job queue (which happens only after the loop consumed its N-th
result) it consumed exactly N results, with `succeeded + failed = N` (the
succeeded/failed counters of the spec's RunStatistics, counted over the
consumed results). -/
theorem C1_conservation (cfg : Cfg) (acts : List Act) (s : Sys)
    (_hW : 0 < cfg.workers)
    (hrun : run cfg acts (initSys cfg) = some s) :
    s.consumed.length ≤ cfg.jobs ∧
      (s.closed = true →
        s.consumed.length = cfg.jobs ∧
          succeededCount s.consumed + failedCount s.consumed = cfg.jobs) := by
  have hw := wf_reach hrun
  refine ⟨hw.hconsumed, fun hc => ⟨hw.hclosed hc, ?_⟩⟩
  rw [succeededCount_add_failedCount s.consumed]
  exact hw.hclosed hc

/-- Witness for C1: the happy-path one-job run reaches a closed state. -/
theorem C1_conservation_witness :
    (outState cfgW1 actsW1).consumed.length ≤ cfgW1.jobs ∧
      ((outState cfgW1 actsW1).closed = true →
        (outState cfgW1 actsW1).consumed.length = cfgW1.jobs ∧
          succeededCount (outState cfgW1 actsW1).consumed +
            failedCount (outState cfgW1 actsW1).consumed = cfgW1.jobs) :=
  C1_conservation cfgW1 actsW1 (outState cfgW1 actsW1) (by decide) rfl

/-- C2: every result ever sent is tagged with the emitting worker's id and the
job's id and records the error of a terminal (non-transient) attempt of that
job; no job id ever has more than one result; in a completed run every job id
has exactly one result; and a job whose attempts include a non-transient one
(in particular one whose first attempt is transient but which is eventually
resolved) produces exactly one terminal outcome under the worker retry
loop. -/
theorem C2_exactly_one_result (cfg : Cfg) (acts : List Act) (s : Sys)
    (hrun : run cfg acts (initSys cfg) = some s) :
    (∀ r ∈ s.emitted ++ s.consumed,
        r.workerId < cfg.workers ∧ r.jobId < cfg.jobs ∧
          ∃ k, k < s.attempts r.jobId ∧ cfg.oracle r.jobId k = r.error ∧
            isTransientErr r.error = false) ∧
      (∀ j, (resultIds s).count j ≤ 1) ∧
      (s.consumed.length = cfg.jobs →
        ∀ j < cfg.jobs, (resultIds s).count j = 1) ∧
      (∀ (out : Nat → Option GoErr) (n : Nat), isTransientErr (out n) = false →
        ∃ m fuel, processJob out 0 fuel = some (m, out m) ∧
          isTransientErr (out m) = false) := by
  have hw := wf_reach hrun
  refine ⟨hw.hres, resultIds_count_le_one hw, ?_, ?_⟩
  · intro hdone
    exact (resultIds_complete hw hdone).2
  · intro out n hn
    obtain ⟨m, hm, hmt⟩ :=
      processJob_terminal out n 0 (by rw [Nat.zero_add]; exact hn)
    exact ⟨m, n + 1, hm, hmt⟩

/-- Witness for C2: a one-job run whose first attempt is transient and whose
retry succeeds. -/
theorem C2_exactly_one_result_witness :
    (∀ r ∈ (outState cfgW2 actsW2).emitted ++ (outState cfgW2 actsW2).consumed,
        r.workerId < cfgW2.workers ∧ r.jobId < cfgW2.jobs ∧
          ∃ k, k < (outState cfgW2 actsW2).attempts r.jobId ∧
            cfgW2.oracle r.jobId k = r.error ∧
            isTransientErr r.error = false) ∧
      (∀ j, (resultIds (outState cfgW2 actsW2)).count j ≤ 1) ∧
      ((outState cfgW2 actsW2).consumed.length = cfgW2.jobs →
        ∀ j < cfgW2.jobs, (resultIds (outState cfgW2 actsW2)).count j = 1) ∧
      (∀ (out : Nat → Option GoErr) (n : Nat), isTransientErr (out n) = false →
        ∃ m fuel, processJob out 0 fuel = some (m, out m) ∧
          isTransientErr (out m) = false) :=
  C2_exactly_one_result cfgW2 actsW2 (outState cfgW2 actsW2) rfl

/-- C3 counterexample: with `jobCount = 3` the run emits no progress
notification at all (the percentages 0, 34, 67 computed by the loop are never
multiples of 5 at the moment they increase), so the claim that every run
covers all twenty thresholds 5,10,...,100 is false. -/
theorem C3_counterexample :
    progressRun 3 = [] ∧ ¬ 5 ∈ progressRun 3 := by
  constructor
  · decide
  · decide

/-- C3 (amended): the percentages announced by the result loop are strictly
increasing (hence each announced at most once), each a positive multiple of 5
not exceeding 100; and when `jobCount ≥ 101` the announced percentages are
exactly the twenty thresholds 5,10,...,100, each exactly once. For smaller
job counts thresholds can be skipped (with `jobCount = 3` nothing is
announced; with `jobCount = 100` the 100% threshold is never announced). -/
theorem C3_amended_progress (n : Nat) :
    (progressRun n).Pairwise (· < ·) ∧
      (∀ v ∈ progressRun n, 0 < v ∧ v % 5 = 0 ∧ v ≤ 100) ∧
      (101 ≤ n → ∀ v, v ∈ progressRun n ↔ (0 < v ∧ v ≤ 100 ∧ v % 5 = 0)) := by
  refine ⟨(progressRun_sound n).1, (progressRun_sound n).2, ?_⟩
  intro hn v
  constructor
  · intro hv
    have h := (progressRun_sound n).2 v hv
    exact ⟨h.1, h.2.2, h.2.1⟩
  · intro hv
    exact progressRun_cover n hn v hv.1 hv.2.1 hv.2.2

/-- Witness for C3 (amended), at `jobCount = 101`. -/
theorem C3_amended_progress_witness :
    (progressRun 101).Pairwise (· < ·) ∧
      (∀ v, v ∈ progressRun 101 ↔ (0 < v ∧ v ≤ 100 ∧ v % 5 = 0)) :=
  ⟨(C3_amended_progress 101).1, (C3_amended_progress 101).2.2 (by decide)⟩

/-- C4: when an insert attempt fails with a transient error (io.EOF or
io.ErrUnexpectedEOF, the only transient classifications), the worker loop body
re-dispatches the same job id (as an independent dispatch, modelled by the
`retryPush` action of the scheduler), reconnects before the next job, and
emits no result for that attempt. -/
theorem C4_transient_redispatch (id jid : Nat) (err : Option GoErr)
    (h : isTransientErr err = true) :
    workerBody id jid err =
      { redispatch := some jid, reconnect := true, result := none } ∧
      isTransientErr (some GoErr.eof) = true ∧
      isTransientErr (some GoErr.unexpectedEOF) = true ∧
      isTransientErr none = false ∧
      (∀ msg, isTransientErr (some (GoErr.other msg)) = false) :=
  ⟨workerBody_transient id jid err h, rfl, rfl, rfl, fun _ => rfl⟩

/-- Witness for C4: worker 0 on job 7 with io.EOF. -/
theorem C4_transient_redispatch_witness :
    workerBody 0 7 (some GoErr.eof) =
      { redispatch := some 7, reconnect := true, result := none } ∧
      isTransientErr (some GoErr.eof) = true ∧
      isTransientErr (some GoErr.unexpectedEOF) = true ∧
      isTransientErr none = false ∧
      (∀ msg, isTransientErr (some (GoErr.other msg)) = false) :=
  C4_transient_redispatch 0 7 (some GoErr.eof) (by decide)

/-- C5: the result loop consumes all `n` requested results even when some are
failures (a failure only logs and continues), each consumed failure is logged
(surfaced) exactly as often as it is consumed — in particular exactly once —
and the number of logged failures is the `failed` count of the run. -/
theorem C5_failures_recorded (stream : List JobResult) (n : Nat)
    (h : n ≤ stream.length) :
    ∃ cons fails, resultLoop n stream = some (cons, fails) ∧
      cons.length = n ∧
      fails = cons.filter (fun r => (r.error).isSome) ∧
      failedCount cons = fails.length ∧
      ∀ r : JobResult, (r.error).isSome = true → fails.count r = cons.count r := by
  refine ⟨stream.take n, (stream.take n).filter (fun r => (r.error).isSome),
    resultLoop_eq n stream h, List.length_take_of_le h, rfl, rfl, ?_⟩
  intro r hr
  exact List.count_filter (by simpa using hr)

/-- Witness for C5: two results, one permanent failure among them. -/
theorem C5_failures_recorded_witness :
    ∃ cons fails, resultLoop 2 streamW5 = some (cons, fails) ∧
      cons.length = 2 ∧
      fails = cons.filter (fun r => (r.error).isSome) ∧
      failedCount cons = fails.length ∧
      ∀ r : JobResult, (r.error).isSome = true → fails.count r = cons.count r :=
  C5_failures_recorded streamW5 2 (by decide)

/-- C6: the job source's output is always a prefix of `0, 1, ..., jobCount-1`
(so ids are pushed in increasing order, each at most once, none other), and
once the source has finished it has pushed exactly the ids
`0..jobCount-1`, each exactly once. -/
theorem C6_job_source (cfg : Cfg) (acts : List Act) (s : Sys)
    (hrun : run cfg acts (initSys cfg) = some s) :
    s.pushed = (List.range cfg.jobs).take s.pushed.length ∧
      s.pushed.Pairwise (· < ·) ∧ s.pushed.Nodup ∧
      (s.src = [] → s.pushed = List.range cfg.jobs) := by
  have hw := wf_reach hrun
  have hp := hw.hpushed
  have htake : s.pushed = (List.range cfg.jobs).take s.pushed.length := by
    conv_lhs => rw [← List.take_left s.pushed s.src]
    rw [hp]
  have hpw : s.pushed.Pairwise (· < ·) := by
    rw [htake]
    exact List.Pairwise.sublist (List.take_sublist _ _)
      (List.pairwise_lt_range cfg.jobs)
  refine ⟨htake, hpw, hpw.imp (fun hab => Nat.ne_of_lt hab), ?_⟩
  intro hsrc
  rw [hsrc] at hp
  simpa using hp

/-- Witness for C6: a two-job run whose source has finished. -/
theorem C6_job_source_witness :
    (outState cfgW6 actsW6).pushed =
        (List.range cfgW6.jobs).take (outState cfgW6 actsW6).pushed.length ∧
      (outState cfgW6 actsW6).pushed.Pairwise (· < ·) ∧
      (outState cfgW6 actsW6).pushed.Nodup ∧
      ((outState cfgW6 actsW6).src = [] →
        (outState cfgW6 actsW6).pushed = List.range cfgW6.jobs) :=
  C6_job_source cfgW6 actsW6 (outState cfgW6 actsW6) rfl

set_option maxRecDepth 4000 in
/-- C7 counterexample: with the code's queue capacity C = 512 and W = 1
worker, a reachable state of a 515-job run (the scheduler starves the spawned
retry goroutines while every attempt is transient) has 514 jobs in flight —
dequeued but not yet resulted — exceeding C + W = 513. -/
theorem C7_counterexample :
    cfg7.cap = 512 ∧ cfg7.workers = 1 ∧
      run cfg7 (pileSchedule 514) (initSys cfg7) = some (pileState 514) ∧
      cfg7.cap + cfg7.workers < inFlight (pileState 514) := by
  refine ⟨rfl, rfl, pileState_reach 514 (by omega), ?_⟩
  show 512 + 1 < inFlight (pileState 514)
  decide

/-- C7 (amended): the number of jobs in flight (dequeued but not yet
resulted) in any reachable state is bounded by `jobCount` — but not by
`C + W`: pending retry dispatches can hold arbitrarily many dequeued jobs
(see the counterexample). -/
theorem C7_inflight_le_jobs (cfg : Cfg) (acts : List Act) (s : Sys)
    (hrun : run cfg acts (initSys cfg) = some s) :
    inFlight s ≤ cfg.jobs := by
  have hw := wf_reach hrun
  have h1 := List.length_filter_le
    (fun j => !((resultIds s).contains j)) s.dequeued
  have h2 : s.dequeued.length ≤ cfg.jobs :=
    length_le_of_nodup_lt s.dequeued cfg.jobs hw.hdq hw.hdqlt
  rw [inFlight]
  omega

/-- Witness for C7 (amended): a one-job run with the job in a worker's
hands. -/
theorem C7_inflight_le_jobs_witness :
    inFlight (outState cfgW7 actsW7) ≤ cfgW7.jobs :=
  C7_inflight_le_jobs cfgW7 actsW7 (outState cfgW7 actsW7) rfl

/-- C8: the `connect` loop never returns an error — whenever it returns a
handle, some dial attempt succeeded (the handle is the first successful
attempt); against a permanently unreachable resource (no dial ever succeeds)
it never returns, no matter how long it runs; and when attempt `j` is the
first to succeed it returns that handle having logged every one of the
`j + 1` attempts, with no upper bound on `j`. -/
theorem C8_connect_retries (dial : Nat → Bool) :
    (∀ fuel k logs h, (connect dial k logs fuel).1 = some h → dial h = true) ∧
      ((∀ n, dial n = false) → ∀ fuel k logs,
        (connect dial k logs fuel).1 = none) ∧
      (∀ j, dial j = true → (∀ m < j, dial m = false) →
        ∀ fuel, j < fuel → connect dial 0 0 fuel = (some j, j + 1)) := by
  refine ⟨connect_result_dial, connect_none_of_no_dial, ?_⟩
  intro j hj hm fuel hf
  have := connect_first_success j fuel 0 0 hf (by simpa using hj)
    (fun m hmj => by simpa using hm m hmj)
  simpa using this

/-- Witness for C8: a dial oracle succeeding on its third attempt. -/
theorem C8_connect_retries_witness :
    connect dialW8 0 0 5 = (some 2, 3) := by
  have := (C8_connect_retries dialW8).2.2 2 (by decide) (by decide) 5 (by decide)
  exact this

/-- C9: whenever the run has closed the job queue it has consumed exactly
`jobCount` results first, and the reported average per job is the elapsed
nanoseconds integer-divided (Go int64 truncated division) by the job
count. -/
theorem C9_close_and_average (cfg : Cfg) (acts : List Act) (s : Sys)
    (hrun : run cfg acts (initSys cfg) = some s) (hclosed : s.closed = true) :
    s.consumed.length = cfg.jobs ∧
      (∀ (elapsedNs m : Int), m ≠ 0 →
        averagePerJobNs elapsedNs m = some (Int.tdiv elapsedNs m)) := by
  have hw := wf_reach hrun
  refine ⟨hw.hclosed hclosed, ?_⟩
  intro ns m hm
  rw [averagePerJobNs, goDivInt64, if_neg hm]

/-- Witness for C9: the one-job happy-path run, closed at the end. -/
theorem C9_close_and_average_witness :
    (outState cfgW9 actsW9).consumed.length = cfgW9.jobs ∧
      (∀ (elapsedNs m : Int), m ≠ 0 →
        averagePerJobNs elapsedNs m = some (Int.tdiv elapsedNs m)) :=
  C9_close_and_average cfgW9 actsW9 (outState cfgW9 actsW9) rfl rfl

/-- C10: with `jobCount = 0` the result loop consumes nothing, the queue is
then closed (the coordClose step is enabled immediately), and the
average-per-job computation divides by zero, which in Go panics (modelled as
`none`): the run does not report statistics normally. -/
theorem C10_zero_jobs_division_panics :
    (∀ elapsedNs : Int, averagePerJobNs elapsedNs 0 = none) ∧
      resultLoop 0 [] = some ([], []) ∧
      run cfg10 [Act.coordClose] (initSys cfg10) =
        some (outState cfg10 [Act.coordClose]) ∧
      (outState cfg10 [Act.coordClose]).closed = true := by
  refine ⟨?_, rfl, rfl, rfl⟩
  intro ns
  rw [averagePerJobNs, goDivInt64, if_pos rfl]

end DbPool
